import Mathlib

/-!
Verification development for the `llmgrep` semantic file search pipeline.

The Rust sources (`src/llmsort.rs`, `src/llmgrep.rs`) are shallowly embedded:

* filesystem paths are lists of components (`FsPath`), mirroring the
  component-wise semantics of `Path::starts_with` / `Path::strip_prefix`;
* file bytes are natural numbers `< 256` (no claim depends on the bound, so
  plain `ℕ` is used with the source's comparisons);
* relevance scores are `f32` in the source; the pipeline never performs any
  arithmetic on them — it only copies parsed values, compares them with `0.0`
  and sorts by them — so they are modeled as rationals `ℚ`;
* the text-generation oracle is an external black box.  A scoring response is
  modeled by the outcomes of the two decode attempts the source makes on the
  raw text, and a chunk-analysis response by the outcome of its request and
  single decode attempt.  Theorems quantify over all such outcomes;
* `Result`-valued code is modeled with `Except` where the error path matters.
-/

namespace LlmGrep

/-- A filesystem path, as its list of components (the semantics `Path`
comparison functions in the source use). -/
abbrev FsPath := List String

/-- Constant `MAX_FILE_SIZE` from `src/llmsort.rs` (1 MiB). -/
def MAX_FILE_SIZE : ℕ := 1024 * 1024

/-- Constant `BATCH_SIZE` from `src/llmsort.rs`. -/
def BATCH_SIZE : ℕ := 100

/-- Constant `MIN_BINARY_CHECK_SIZE` from `src/llmsort.rs`. -/
def MIN_BINARY_CHECK_SIZE : ℕ := 1000

/-- Constant `BINARY_THRESHOLD` from `src/llmsort.rs`. -/
def BINARY_THRESHOLD : ℕ := 300

/-- Constant `MAX_SORT_TRY_COUNT` from `src/llmsort.rs`. -/
def MAX_SORT_TRY_COUNT : ℕ := 3

/-- Constant `CHUNK_SIZE` from `src/llmgrep.rs` (characters per chunk). -/
def CHUNK_SIZE : ℕ := 2000

/-- Model of Rust's `slice::chunks(n)`: successive sub-slices of length `n`,
the last one possibly shorter.  The source calls it with `BATCH_SIZE` (batching
candidate files) and `CHUNK_SIZE` (splitting a file's characters); `n = 0`
panics in Rust and is mapped to `[]` here (never reached by the embedding). -/
def chunksOf (n : ℕ) (l : List α) : List (List α) :=
  match l with
  | [] => []
  | x :: xs =>
    if _hn : n = 0 then []
    else (x :: xs).take n :: chunksOf n ((x :: xs).drop n)
termination_by l.length
decreasing_by
  simp only [List.length_drop, List.length_cons]
  omega

theorem chunksOf_nil (n : ℕ) : chunksOf n ([] : List α) = [] := by
  rw [chunksOf]

theorem chunksOf_eq_cons (n : ℕ) (l : List α) (hl : l ≠ []) (hn : n ≠ 0) :
    chunksOf n l = l.take n :: chunksOf n (l.drop n) := by
  match l with
  | [] => exact absurd rfl hl
  | x :: xs =>
    rw [chunksOf]
    simp [hn]

/-- One parsed `{filename, score}` entry (`struct FileScore` in
`src/llmsort.rs`); the `f32` score is modeled as `ℚ`. -/
structure FileScore where
  filename : String
  score : ℚ
deriving DecidableEq, Repr

/-- Model of one raw oracle response text in the scoring pass.  Instead of
embedding a JSON grammar, a response is represented by the outcomes of the two
decode attempts `analyze_filenames_batch` performs on the text: decoding as the
wrapper object `{"filenames": [...]}` (`FileScores`) and decoding as a bare
array `[...]` (`Vec<FileScore>`); `none` means that decode attempt fails. -/
structure ScoreResponse where
  asObject : Option (List FileScore)
  asArray : Option (List FileScore)
deriving DecidableEq, Repr

/-- The decode cascade of `analyze_filenames_batch` (src/llmsort.rs lines
76-100): try the wrapper object, then the bare array, then give up with `[]`. -/
def parseScores (r : ScoreResponse) : List FileScore :=
  match r.asObject with
  | some scores => scores
  | none =>
    match r.asArray with
    | some scores => scores
    | none => []

/-- The per-file merge of `analyze_filenames_batch` (src/llmsort.rs lines
106-109): the score of the first parsed entry whose `filename` equals the
requested display name, defaulting to `0.0` when there is none
(`find(..).map_or_else(|| 0.0, |score| score.score)`). -/
def scoreFor (resp : ScoreResponse) (name : String) : ℚ :=
  match (parseScores resp).find? (fun s => s.filename == name) with
  | some s => s.score
  | none => 0

/-- Merge step of `analyze_filenames_batch` (src/llmsort.rs lines 102-113):
for each requested `(path, display name)` pair, the merged score of its
display name. -/
def analyze_filenames_batch (files : List (FsPath × String)) (resp : ScoreResponse) :
    List ℚ :=
  files.map fun file => scoreFor resp file.2

/-- The `Result` level of `analyze_filenames_batch`: the `?` on
`self.ollama.generate(request)` propagates a failed oracle request, while a
response that arrives is handled by the total function above. -/
def analyze_filenames_batchE (files : List (FsPath × String))
    (resp : Except Unit ScoreResponse) : Except Unit (List ℚ) :=
  match resp with
  | .error e => .error e
  | .ok r => .ok (analyze_filenames_batch files r)

/-- Rust's `path.file_name()` mapped through `to_string_lossy`, with
`unwrap_or_default` (src/llmsort.rs lines 130-133): the last component,
or `""` for an empty path. -/
def fileName (p : FsPath) : String := p.getLast?.getD ""

/-- Function `is_binary_file` from `src/llmsort.rs` lines 174-183: count the
bytes that are `0` or `≥ 128` among the first `min (length, 1000)` bytes and
compare against the threshold `300`. -/
def is_binary_file (content : List ℕ) : Bool :=
  let check_size := min content.length MIN_BINARY_CHECK_SIZE
  let non_ascii_count :=
    (content.take check_size).countP fun byte => byte == 0 || decide (128 ≤ byte)
  decide (BINARY_THRESHOLD < non_ascii_count)

/-- A UTF-8 continuation byte (`0x80 ..= 0xBF`). -/
def utf8Cont (b : ℕ) : Bool := decide (0x80 ≤ b) && decide (b ≤ 0xBF)

/-- Validity of a byte sequence as UTF-8, as enforced by Rust's
`String::from_utf8` (src/llmsort.rs line 240): the standard table, rejecting
overlong encodings, surrogates and code points beyond `U+10FFFF`. -/
def utf8Valid : List ℕ → Bool
  | [] => true
  | b :: rest =>
    if decide (b ≤ 0x7F) then utf8Valid rest
    else if decide (0xC2 ≤ b) && decide (b ≤ 0xDF) then
      match rest with
      | c :: rest2 => utf8Cont c && utf8Valid rest2
      | [] => false
    else if b == 0xE0 then
      match rest with
      | c :: d :: rest2 =>
        (decide (0xA0 ≤ c) && decide (c ≤ 0xBF)) && utf8Cont d && utf8Valid rest2
      | _ => false
    else if (decide (0xE1 ≤ b) && decide (b ≤ 0xEC)) || b == 0xEE || b == 0xEF then
      match rest with
      | c :: d :: rest2 => utf8Cont c && utf8Cont d && utf8Valid rest2
      | _ => false
    else if b == 0xED then
      match rest with
      | c :: d :: rest2 =>
        (decide (0x80 ≤ c) && decide (c ≤ 0x9F)) && utf8Cont d && utf8Valid rest2
      | _ => false
    else if b == 0xF0 then
      match rest with
      | c :: d :: e :: rest2 =>
        (decide (0x90 ≤ c) && decide (c ≤ 0xBF)) && utf8Cont d && utf8Cont e &&
          utf8Valid rest2
      | _ => false
    else if decide (0xF1 ≤ b) && decide (b ≤ 0xF3) then
      match rest with
      | c :: d :: e :: rest2 =>
        utf8Cont c && utf8Cont d && utf8Cont e && utf8Valid rest2
      | _ => false
    else if b == 0xF4 then
      match rest with
      | c :: d :: e :: rest2 =>
        (decide (0x80 ≤ c) && decide (c ≤ 0x8F)) && utf8Cont d && utf8Cont e &&
          utf8Valid rest2
      | _ => false
    else false

/-- A directory entry: a file with its byte content, or a subdirectory with its
entries in `read_dir` order.  Metadata/read failures are not modeled: the
claims under verification do not involve them. -/
inductive FsEntry where
  | file (name : String) (bytes : List ℕ)
  | dir (name : String) (entries : List FsEntry)
deriving Repr

/-- The name of a directory entry. -/
def FsEntry.name : FsEntry → String
  | .file n _ => n
  | .dir n _ => n

/-- Function `should_ignore` from `src/llmsort.rs` lines 185-199: strip `root`
from `path` (falling back to `path` itself when `root` is not a component-wise
prefix, as `unwrap_or` does) and test whether any ignore pattern is a
component-wise prefix of the result.  Ignore patterns are given as component
lists, matching `Path::new(ignore)` on the pattern string. -/
def should_ignore (path root : FsPath) (ignore_paths : List FsPath) : Bool :=
  let rel_path := (root.isPrefixOf? path).getD path
  ignore_paths.any fun ignore => ignore.isPrefixOf rel_path

/-- Function `collect_candidates` from `src/llmsort.rs` lines 201-251: walk the
entries of `dir` in order; skip an entry when `should_ignore` fires **with the
current directory passed as the root argument** (line 209 passes `dir`, the
directory being scanned, not the original search root); recurse into
subdirectories; keep files that pass the size, binary and UTF-8 checks. -/
def collect_candidates (dir : FsPath) (ignore_paths : List FsPath) :
    List FsEntry → List FsPath
  | [] => []
  | .dir n sub :: rest =>
    (if should_ignore (dir ++ [n]) dir ignore_paths then []
     else collect_candidates (dir ++ [n]) ignore_paths sub) ++
      collect_candidates dir ignore_paths rest
  | .file n content :: rest =>
    (if should_ignore (dir ++ [n]) dir ignore_paths then []
     else if MAX_FILE_SIZE < content.length then []
     else if is_binary_file content then []
     else if !utf8Valid content then []
     else [dir ++ [n]]) ++
      collect_candidates dir ignore_paths rest

/-- The sort of `collect_and_sort_candidates` (src/llmsort.rs lines 143-145):
`Vec::sort_by` with comparator `b.partial_cmp(a)`, i.e. a **stable** sort into
non-increasing score order.  A stable sort for a fixed total preorder is a
unique function of its input, so Rust's stable `sort_by` is modeled by
`List.mergeSort` with the corresponding boolean order (scores are rationals
here, so the `unwrap_or(Equal)` branch for incomparable floats is dead). -/
def sortCand (l : List (FsPath × ℚ)) : List (FsPath × ℚ) :=
  l.mergeSort fun a b => decide (b.2 ≤ a.2)

/-- The batching loop of `collect_and_sort_candidates` (src/llmsort.rs lines
124-141): cut the candidate list into chunks of `BATCH_SIZE`, score each chunk
with its own oracle response (`oracle i` is the response text for the `i`-th
batch request), and concatenate `chunk.zip scores` in batch order. -/
def scoreBatches (candidates : List FsPath) (oracle : ℕ → ScoreResponse) :
    List (FsPath × ℚ) :=
  ((chunksOf BATCH_SIZE candidates).enum.map fun batch =>
    batch.2.zip
      (analyze_filenames_batch (batch.2.map fun p => (p, fileName p)) (oracle batch.1))).flatten

/-- Function `collect_and_sort_candidates` from `src/llmsort.rs` lines
116-146: collect, score in batches, sort descending by score. -/
def collect_and_sort_candidates (dir : FsPath) (ignore_paths : List FsPath)
    (entries : List FsEntry) (oracle : ℕ → ScoreResponse) : List (FsPath × ℚ) :=
  sortCand (scoreBatches (collect_candidates dir ignore_paths entries) oracle)

/-- The retry loop of `collect_sort_with_retry` (src/llmsort.rs lines 154-171),
abstracted over one attempt of the collect+score cycle (`step t` is the sorted
candidate list produced by attempt `t`): while `try_count < MAX_SORT_TRY_COUNT`,
run an attempt; an empty list returns `[]` at once; a positive score returns the
list; otherwise increment and loop.  Falling out of the loop returns `[]`. -/
def retryGo (step : ℕ → List (FsPath × ℚ)) (try_count : ℕ) : List (FsPath × ℚ) :=
  if try_count < MAX_SORT_TRY_COUNT then
    let candidates := step try_count
    if candidates.isEmpty then []
    else if candidates.any fun c => decide (0 < c.2) then candidates
    else retryGo step (try_count + 1)
  else []
termination_by MAX_SORT_TRY_COUNT - try_count

/-- Function `collect_sort_with_retry` from `src/llmsort.rs` lines 148-172.
`oracle t i` is the oracle's response to the `i`-th batch request of attempt
`t`; the filesystem does not change between attempts in this model. -/
def collect_sort_with_retry (dir : FsPath) (ignore_paths : List FsPath)
    (entries : List FsEntry) (oracle : ℕ → ℕ → ScoreResponse) : List (FsPath × ℚ) :=
  retryGo (fun t => collect_and_sort_candidates dir ignore_paths entries (oracle t)) 0

/-- The inlined ranking loop at the top of `search_directory` (src/llmgrep.rs
lines 94-112), abstracted over one attempt like `retryGo`.  It differs from
`collect_sort_with_retry` in its exit: `none` models the early
`return Ok(())` after printing "No candidates found", and `some cs` models
falling through to the second (content-verification) pass with `cs` —
including, after three all-zero attempts, the **last all-zero list**. -/
def searchRankGo (step : ℕ → List (FsPath × ℚ)) (try_count : ℕ)
    (candidates : List (FsPath × ℚ)) : Option (List (FsPath × ℚ)) :=
  if try_count < 3 then
    let c := step try_count
    if c.isEmpty then none
    else if c.any fun x => decide (0 < x.2) then some c
    else searchRankGo step (try_count + 1) c
  else some candidates
termination_by 3 - try_count

/-- The ranking stage actually executed by `search_directory` (src/llmgrep.rs
lines 94-112): the candidate list the second pass will iterate, or `none` when
the function returns early because the collector found nothing. -/
def search_directory_rank (dir : FsPath) (ignore_paths : List FsPath)
    (entries : List FsEntry) (oracle : ℕ → ℕ → ScoreResponse) :
    Option (List (FsPath × ℚ)) :=
  searchRankGo (fun t => collect_and_sort_candidates dir ignore_paths entries (oracle t)) 0 []

/-- The decoded shape of one chunk-analysis oracle response
(`struct AnalysisResponse` in `src/llmgrep.rs`): `has_match` is required,
`analysis` may be absent or `null`. -/
structure AnalysisResponse where
  has_match : Bool
  analysis : Option String
deriving DecidableEq, Repr

/-- Outcome of one chunk's oracle interaction in `analyze_content`: the
request itself may fail (`requestError`), the returned text may fail to decode
as `AnalysisResponse` (`parseError`), or a decoded verdict arrives. -/
inductive ChunkResp where
  | requestError
  | parseError
  | parsed (r : AnalysisResponse)
deriving DecidableEq, Repr

/-- Function `analyze_content` from `src/llmgrep.rs` lines 35-84, as a function
of the oracle interaction's outcome: both the `?` on `generate` and the `?` on
`serde_json::from_str` propagate an error; a decoded verdict yields `Ok(None)`
when `has_match` is false and `Ok(analysis)` otherwise. -/
def analyze_content (resp : ChunkResp) : Except Unit (Option String) :=
  match resp with
  | .requestError => .error ()
  | .parseError => .error ()
  | .parsed r => if !r.has_match then .ok none else .ok r.analysis

/-- The chunk loop of `search_directory`'s second pass (src/llmgrep.rs lines
140-151) over an explicit chunk list, recording which chunk indices get an
oracle call and what (if anything) is emitted for the file: chunk `i` is
analyzed; only `Ok(Some(relevance))` prints the match and breaks, every other
outcome falls through to the next chunk. -/
def verifyGo (oracle : ℕ → ChunkResp) : ℕ → List (List Char) → List ℕ × Option String
  | _, [] => ([], none)
  | i, _ :: rest =>
    match analyze_content (oracle i) with
    | .ok (some s) => ([i], some s)
    | _ =>
      let r := verifyGo oracle (i + 1) rest
      (i :: r.1, r.2)

/-- Verification of one candidate file (src/llmgrep.rs lines 138-151): split
the decoded content into `CHUNK_SIZE`-character chunks and scan them in order;
`oracle i` is the outcome of the oracle interaction for chunk `i`.  Returns the
list of chunk indices that received an oracle call and the emitted analysis. -/
def verifyFile (oracle : ℕ → ChunkResp) (content : List Char) :
    List ℕ × Option String :=
  verifyGo oracle 0 (chunksOf CHUNK_SIZE content)

/-- The per-file eligibility test of `collect_candidates` (src/llmsort.rs lines
227-244), separated out: size cap, binary heuristic, UTF-8 validity. -/
def eligibleBytes (bytes : List ℕ) : Bool :=
  decide (bytes.length ≤ MAX_FILE_SIZE) && !is_binary_file bytes && utf8Valid bytes

/-- What `should_ignore` actually tests for an entry scanned inside its parent
directory: some ignore pattern is a component-wise prefix of the
single-component path `[n]`, where `n` is the entry's name. -/
def nameIgnored (ignore_paths : List FsPath) (n : String) : Bool :=
  ignore_paths.any fun ignore => ignore.isPrefixOf [n]

/-- There is a file with byte content `bytes` at relative component path
`suffix` inside the given entry list. -/
inductive HasFile : List FsEntry → List String → List ℕ → Prop where
  | here (name : String) (bytes : List ℕ) (rest : List FsEntry) :
      HasFile (.file name bytes :: rest) [name] bytes
  | inDir (name : String) (sub rest : List FsEntry) (suffix : List String)
      (bytes : List ℕ) (h : HasFile sub suffix bytes) :
      HasFile (.dir name sub :: rest) (name :: suffix) bytes
  | there (e : FsEntry) (rest : List FsEntry) (suffix : List String)
      (bytes : List ℕ) (h : HasFile rest suffix bytes) :
      HasFile (e :: rest) suffix bytes

/-- Whether a chunk's oracle interaction ends in the one outcome that stops the
chunk loop: the request succeeded, the verdict decoded, `has_match` is true and
`analysis` is non-null (the `Ok(Some(relevance))` pattern at src/llmgrep.rs
line 147). -/
def isChunkMatch (r : ChunkResp) : Bool :=
  match analyze_content r with
  | .ok (some _) => true
  | _ => false

/-- The analysis text a chunk's oracle interaction would emit, if any. -/
def chunkEmit (r : ChunkResp) : Option String :=
  match analyze_content r with
  | .ok (some s) => some s
  | _ => none

/-- Pointwise update of a chunk oracle at index `i`. -/
def updateAt (oracle : ℕ → ChunkResp) (i : ℕ) (r : ChunkResp) : ℕ → ChunkResp :=
  fun j => if j = i then r else oracle j

/-- The chunk sizes `chunksOf n` produces on a list of length `m`. -/
def chunkSizes (n m : ℕ) : List ℕ :=
  if m = 0 then []
  else if n = 0 then []
  else min n m :: chunkSizes n (m - n)
termination_by m
decreasing_by omega

/-! ### Helper lemmas about chunking -/

theorem chunksOf_zero (l : List α) : chunksOf 0 l = [] := by
  match l with
  | [] => rw [chunksOf]
  | x :: xs => rw [chunksOf]; simp

theorem chunksOf_flatten (n : ℕ) (hn : n ≠ 0) (l : List α) :
    (chunksOf n l).flatten = l := by
  match l with
  | [] => rw [chunksOf_nil]; rfl
  | x :: xs =>
    rw [chunksOf_eq_cons n (x :: xs) (by simp) hn, List.flatten_cons,
      chunksOf_flatten n hn ((x :: xs).drop n), List.take_append_drop]
termination_by l.length
decreasing_by
  simp only [List.length_drop, List.length_cons]
  omega

theorem length_le_of_mem_chunksOf {n : ℕ} {l c : List α}
    (hc : c ∈ chunksOf n l) : c.length ≤ n := by
  match l with
  | [] => rw [chunksOf_nil] at hc; cases hc
  | x :: xs =>
    by_cases hn : n = 0
    · subst hn; rw [chunksOf_zero] at hc; cases hc
    · rw [chunksOf_eq_cons n (x :: xs) (by simp) hn] at hc
      rcases List.mem_cons.mp hc with rfl | h
      · simp [List.length_take]
      · exact length_le_of_mem_chunksOf h
termination_by l.length
decreasing_by
  simp only [List.length_drop, List.length_cons]
  omega

theorem chunkSizes_zero (n : ℕ) : chunkSizes n 0 = [] := by
  rw [chunkSizes]
  simp

theorem chunkSizes_eq_cons (n m : ℕ) (hm : m ≠ 0) (hn : n ≠ 0) :
    chunkSizes n m = min n m :: chunkSizes n (m - n) := by
  rw [chunkSizes]
  simp [hm, hn]

theorem chunksOf_map_length (n : ℕ) (hn : n ≠ 0) (l : List α) :
    (chunksOf n l).map List.length = chunkSizes n l.length := by
  match l with
  | [] => rw [chunksOf_nil, chunkSizes]; rfl
  | x :: xs =>
    rw [chunksOf_eq_cons n (x :: xs) (by simp) hn, List.map_cons,
      chunksOf_map_length n hn ((x :: xs).drop n),
      chunkSizes_eq_cons n (x :: xs).length (by simp) hn]
    simp [List.length_take, List.length_drop]
termination_by l.length
decreasing_by
  simp only [List.length_drop, List.length_cons]
  omega

theorem take_min_length (l : List α) (k : ℕ) : l.take (min l.length k) = l.take k := by
  rcases le_total l.length k with h | h
  · rw [min_eq_left h, List.take_length, List.take_of_length_le h]
  · rw [min_eq_right h]

theorem chunkSizes_2000_4500 : chunkSizes 2000 4500 = [2000, 2000, 500] := by
  rw [chunkSizes_eq_cons 2000 4500 (by norm_num) (by norm_num)]
  norm_num
  rw [chunkSizes_eq_cons 2000 2500 (by norm_num) (by norm_num)]
  norm_num
  rw [chunkSizes_eq_cons 2000 500 (by norm_num) (by norm_num)]
  norm_num
  rw [chunkSizes_zero]

/-! ### Claim theorems: chunking and the binary heuristic -/

/-- C8: splitting a decoded file text into chunks (src/llmgrep.rs lines
140-146) produces ordered chunks of at most `CHUNK_SIZE = 2000` characters
each, whose concatenation equals the original text exactly; a text of 4500
characters yields chunks of sizes `[2000, 2000, 500]`. -/
theorem C8_chunk_roundtrip (l : List Char) :
    (chunksOf CHUNK_SIZE l).flatten = l ∧
    (∀ c ∈ chunksOf CHUNK_SIZE l, c.length ≤ CHUNK_SIZE) ∧
    (l.length = 4500 → (chunksOf CHUNK_SIZE l).map List.length = [2000, 2000, 500]) := by
  refine ⟨chunksOf_flatten CHUNK_SIZE (by decide) l,
    fun c hc => length_le_of_mem_chunksOf hc, fun h4500 => ?_⟩
  rw [chunksOf_map_length CHUNK_SIZE (by decide) l, h4500]
  exact chunkSizes_2000_4500

/-- Witness for C8 at a concrete 4500-character text. -/
theorem C8_chunk_roundtrip_witness :
    (List.replicate 4500 'a').length = 4500 ∧
    (chunksOf CHUNK_SIZE (List.replicate 4500 'a')).map List.length = [2000, 2000, 500] :=
  ⟨by rw [List.length_replicate],
    (C8_chunk_roundtrip (List.replicate 4500 'a')).2.2 (by rw [List.length_replicate])⟩

/-- C9: `is_binary_file` (src/llmsort.rs lines 174-183) classifies a buffer as
binary exactly when the count of bytes that are `0` or `≥ 128` among the first
`min (length, 1000)` bytes exceeds `300`; a buffer with no such byte in its
first 1000 bytes is never classified binary, and one with at least 301 of them
in its first 1000 bytes always is. -/
theorem C9_binary_heuristic (content : List ℕ) :
    (is_binary_file content = true ↔
      300 < (content.take 1000).countP fun b => b == 0 || decide (128 ≤ b)) ∧
    ((content.take 1000).countP (fun b => b == 0 || decide (128 ≤ b)) = 0 →
      is_binary_file content = false) ∧
    (301 ≤ (content.take 1000).countP (fun b => b == 0 || decide (128 ≤ b)) →
      is_binary_file content = true) := by
  have h : is_binary_file content =
      decide (300 < (content.take 1000).countP fun b => b == 0 || decide (128 ≤ b)) := by
    simp only [is_binary_file, MIN_BINARY_CHECK_SIZE, BINARY_THRESHOLD,
      take_min_length]
  refine ⟨?_, ?_, ?_⟩
  · rw [h]; exact decide_eq_true_iff
  · intro h0; rw [h, decide_eq_false_iff_not]; omega
  · intro h301; rw [h, decide_eq_true_iff]; omega

set_option maxRecDepth 100000 in
/-- Witness for C9 at two concrete 1000-byte buffers. -/
theorem C9_binary_heuristic_witness :
    ((List.replicate 1000 (65 : ℕ)).take 1000).countP
        (fun b => b == 0 || decide (128 ≤ b)) = 0 ∧
    is_binary_file (List.replicate 1000 (65 : ℕ)) = false ∧
    301 ≤ ((List.replicate 1000 (0 : ℕ)).take 1000).countP
        (fun b => b == 0 || decide (128 ≤ b)) ∧
    is_binary_file (List.replicate 1000 (0 : ℕ)) = true :=
  ⟨by decide, (C9_binary_heuristic (List.replicate 1000 65)).2.1 (by decide),
    by decide, (C9_binary_heuristic (List.replicate 1000 0)).2.2 (by decide)⟩

/-! ### Claim theorems: the relevance scorer -/

theorem scoreBatches_length (candidates : List FsPath) (oracle : ℕ → ScoreResponse) :
    (scoreBatches candidates oracle).length = candidates.length := by
  rw [scoreBatches, List.length_flatten, List.map_map]
  have h1 : (List.length ∘ fun batch : ℕ × List FsPath =>
      batch.2.zip (analyze_filenames_batch (batch.2.map fun p => (p, fileName p))
        (oracle batch.1))) = fun batch : ℕ × List FsPath => batch.2.length := by
    funext batch
    simp [analyze_filenames_batch]
  rw [h1]
  have h2 : ((chunksOf BATCH_SIZE candidates).enum.map
      fun batch : ℕ × List FsPath => batch.2.length)
      = (chunksOf BATCH_SIZE candidates).map List.length := by
    rw [show (fun batch : ℕ × List FsPath => batch.2.length)
        = List.length ∘ Prod.snd from rfl, ← List.map_map, List.enum_map_snd]
  rw [h2, ← List.length_flatten, chunksOf_flatten BATCH_SIZE (by decide)]

/-- C6: the scoring-pass parser first tries the wrapper object, then the bare
array, then yields the empty result set; a response that defeats both decode
attempts never surfaces as an error — the whole batch defaults to score `0.0`
(a total function of the response), a received response always produces an
`Ok` at the `Result` level, and every batch of candidates contributes its
scores (the scored list covers all candidates of all batches). -/
theorem C6_parse_cascade :
    (∀ (r : ScoreResponse) (l : List FileScore), r.asObject = some l →
      parseScores r = l) ∧
    (∀ (r : ScoreResponse) (l : List FileScore), r.asObject = none →
      r.asArray = some l → parseScores r = l) ∧
    (∀ r : ScoreResponse, r.asObject = none → r.asArray = none →
      parseScores r = []) ∧
    (∀ (files : List (FsPath × String)) (r : ScoreResponse),
      r.asObject = none → r.asArray = none →
      analyze_filenames_batch files r = files.map fun _ => 0) ∧
    (∀ (files : List (FsPath × String)) (r : ScoreResponse),
      analyze_filenames_batchE files (Except.ok r)
        = Except.ok (analyze_filenames_batch files r)) ∧
    (∀ (candidates : List FsPath) (oracle : ℕ → ScoreResponse),
      (scoreBatches candidates oracle).length = candidates.length) := by
  refine ⟨?_, ?_, ?_, ?_, ?_, scoreBatches_length⟩
  · intro r l h
    simp [parseScores, h]
  · intro r l h1 h2
    simp [parseScores, h1, h2]
  · intro r h1 h2
    simp [parseScores, h1, h2]
  · intro files r h1 h2
    simp [analyze_filenames_batch, scoreFor, parseScores, h1, h2]
  · intro files r
    rfl

/-- Witness for C6 at concrete responses. -/
theorem C6_parse_cascade_witness :
    parseScores ⟨some [⟨"a", 1⟩], some [⟨"b", 2⟩]⟩ = [⟨"a", 1⟩] ∧
    parseScores ⟨none, some [⟨"b", 2⟩]⟩ = [⟨"b", 2⟩] ∧
    parseScores ⟨none, none⟩ = [] ∧
    analyze_filenames_batch [(["f"], "f")] ⟨none, none⟩ = [0] :=
  ⟨C6_parse_cascade.1 _ _ rfl, C6_parse_cascade.2.1 _ _ rfl rfl,
    C6_parse_cascade.2.2.1 _ rfl rfl,
    (C6_parse_cascade.2.2.2.1 [(["f"], "f")] ⟨none, none⟩ rfl rfl).trans rfl⟩

/-- C5: the scorer's output is positionally aligned with its input — it has
exactly the input's length, and position `i` holds the score of the first
parsed entry whose filename equals the `i`-th display name, or exactly `0.0`
when no parsed entry matches. -/
theorem C5_positional_alignment (files : List (FsPath × String)) (resp : ScoreResponse) :
    (analyze_filenames_batch files resp).length = files.length ∧
    ∀ i (hi : i < files.length),
      (analyze_filenames_batch files resp).getD i 0 =
        match (parseScores resp).find? (fun s => s.filename == files[i].2) with
        | some s => s.score
        | none => 0 := by
  constructor
  · simp [analyze_filenames_batch]
  · intro i hi
    rw [analyze_filenames_batch, List.getD_eq_getElem?_getD, List.getElem?_map,
      List.getElem?_eq_getElem hi]
    rfl

/-- Witness for C5: a two-file batch whose response resolves only the second
file. -/
theorem C5_positional_alignment_witness :
    0 < ([(["a"], "a"), (["b"], "b")] : List (FsPath × String)).length ∧
    (analyze_filenames_batch [(["a"], "a"), (["b"], "b")]
      ⟨some [⟨"b", 1⟩], none⟩).getD 0 0 = 0 ∧
    (analyze_filenames_batch [(["a"], "a"), (["b"], "b")]
      ⟨some [⟨"b", 1⟩], none⟩).getD 1 0 = 1 :=
  ⟨by norm_num,
    ((C5_positional_alignment [(["a"], "a"), (["b"], "b")]
      ⟨some [⟨"b", 1⟩], none⟩).2 0 (by norm_num)).trans (by decide),
    ((C5_positional_alignment [(["a"], "a"), (["b"], "b")]
      ⟨some [⟨"b", 1⟩], none⟩).2 1 (by norm_num)).trans (by decide)⟩

/-- C3 as stated is false: the merge copies whatever score the oracle's parsed
entry carries, with no clamping to `[0,1]` — a parsed score of `2` flows
straight into the candidate list. -/
theorem C3_unit_interval_counterexample :
    analyze_filenames_batch [(["a.txt"], "a.txt")] ⟨some [⟨"a.txt", 2⟩], none⟩ = [2] ∧
    ¬ ∀ q ∈ analyze_filenames_batch [(["a.txt"], "a.txt")]
        ⟨some [⟨"a.txt", 2⟩], none⟩, 0 ≤ q ∧ q ≤ 1 := by
  have h : analyze_filenames_batch [(["a.txt"], "a.txt")]
      ⟨some [⟨"a.txt", 2⟩], none⟩ = [2] := by decide
  refine ⟨h, fun hall => ?_⟩
  have h2 := hall 2 (by rw [h]; exact List.mem_singleton_self 2)
  norm_num at h2

/-- C3 amended: scores lie in `[0,1]` whenever every parsed score of the
response does (the code adds no clamping of its own), and a file left
unresolved by the response is assigned exactly `0.0`. -/
theorem C3_scores_amended (files : List (FsPath × String)) (resp : ScoreResponse)
    (hub : ∀ s ∈ parseScores resp, 0 ≤ s.score ∧ s.score ≤ 1) :
    (∀ q ∈ analyze_filenames_batch files resp, 0 ≤ q ∧ q ≤ 1) ∧
    ∀ i (hi : i < files.length),
      (parseScores resp).find? (fun s => s.filename == files[i].2) = none →
      (analyze_filenames_batch files resp).getD i 0 = 0 := by
  constructor
  · intro q hq
    rcases List.mem_map.mp hq with ⟨file, _hfile, hfq⟩
    rw [← hfq, scoreFor]
    cases h : (parseScores resp).find? (fun s => s.filename == file.2) with
    | some s =>
      simpa using hub s (List.mem_of_find?_eq_some h)
    | none =>
      norm_num
  · intro i hi hnone
    rw [analyze_filenames_batch, List.getD_eq_getElem?_getD, List.getElem?_map,
      List.getElem?_eq_getElem hi]
    simp [scoreFor, hnone]

/-- Witness for C3's amended statement: a response whose parsed scores are in
`[0,1]` yields merged scores in `[0,1]`, with `0.0` for the unresolved file. -/
theorem C3_scores_amended_witness :
    0 ≤ ((1 : ℚ)) ∧ ((1 : ℚ)) ≤ 1 ∧
    (analyze_filenames_batch [(["a"], "a"), (["b"], "b")]
      ⟨some [⟨"b", 1⟩], none⟩).getD 0 0 = 0 :=
  ⟨((C3_scores_amended [(["a"], "a"), (["b"], "b")] ⟨some [⟨"b", 1⟩], none⟩
      (by decide)).1 1 (by decide)).1,
    ((C3_scores_amended [(["a"], "a"), (["b"], "b")] ⟨some [⟨"b", 1⟩], none⟩
      (by decide)).1 1 (by decide)).2,
    (C3_scores_amended [(["a"], "a"), (["b"], "b")] ⟨some [⟨"b", 1⟩], none⟩
      (by decide)).2 0 (by norm_num) (by decide)⟩

/-! ### Claim theorems: sorting -/

/-- C7: the candidate sort is non-increasing by score and stable.  Stability is
stated in the standard sublist form: any subsequence of the input that is
already non-increasing keeps its relative order in the output — in particular
tied candidates keep their collection order.  The claim's concrete example is
included verbatim. -/
theorem C7_stable_descending_sort (l : List (FsPath × ℚ)) :
    (sortCand l).Pairwise (fun a b => b.2 ≤ a.2) ∧
    (sortCand l).Perm l ∧
    (∀ c : List (FsPath × ℚ), c.Pairwise (fun a b => b.2 ≤ a.2) →
      c.Sublist l → c.Sublist (sortCand l)) ∧
    sortCand [(["A"], 2/10), (["B"], 9/10), (["C"], 9/10)]
      = [(["B"], 9/10), (["C"], 9/10), (["A"], 2/10)] := by
  have htrans : ∀ a b c : FsPath × ℚ, decide (b.2 ≤ a.2) = true →
      decide (c.2 ≤ b.2) = true → decide (c.2 ≤ a.2) = true := by
    intro a b c hab hbc
    rw [decide_eq_true_iff] at *
    exact le_trans hbc hab
  have htotal : ∀ a b : FsPath × ℚ,
      (decide (b.2 ≤ a.2) || decide (a.2 ≤ b.2)) = true := by
    intro a b
    simp only [Bool.or_eq_true, decide_eq_true_iff]
    exact le_total b.2 a.2
  refine ⟨?_, List.mergeSort_perm l _, ?_, ?_⟩
  · exact (List.sorted_mergeSort htrans htotal l).imp fun h => of_decide_eq_true h
  · intro c hc hsub
    exact List.sublist_mergeSort htrans htotal
      (hc.imp fun h => decide_eq_true h) hsub
  · simp [sortCand, List.mergeSort, List.splitInTwo, List.merge]
    norm_num

/-- Witness for C7's stability clause: the tied pair `[B, C]` of the claim's
example, in collection order, stays in that order in the sorted output. -/
theorem C7_stable_descending_sort_witness :
    ([(["B"], (9 : ℚ)/10), (["C"], (9 : ℚ)/10)] : List (FsPath × ℚ)).Pairwise
      (fun a b => b.2 ≤ a.2) ∧
    ([(["B"], (9 : ℚ)/10), (["C"], (9 : ℚ)/10)] : List (FsPath × ℚ)).Sublist
      (sortCand [(["A"], 2/10), (["B"], 9/10), (["C"], 9/10)]) := by
  have hpw : ([(["B"], (9 : ℚ)/10), (["C"], (9 : ℚ)/10)] : List (FsPath × ℚ)).Pairwise
      (fun a b => b.2 ≤ a.2) := by
    simp [List.pairwise_cons]
  exact ⟨hpw, (C7_stable_descending_sort
    [(["A"], 2/10), (["B"], 9/10), (["C"], 9/10)]).2.2.1 _ hpw
    (List.sublist_cons_self _ _)⟩

/-! ### Helper lemmas about the content verifier -/

theorem verifyGo_cons (oracle : ℕ → ChunkResp) (i : ℕ) (c : List Char)
    (rest : List (List Char)) :
    verifyGo oracle i (c :: rest) =
      match chunkEmit (oracle i) with
      | some s => ([i], some s)
      | none =>
        (i :: (verifyGo oracle (i + 1) rest).1, (verifyGo oracle (i + 1) rest).2) := by
  cases h : analyze_content (oracle i) with
  | error e => simp [verifyGo, chunkEmit, h]
  | ok o =>
    cases o with
    | none => simp [verifyGo, chunkEmit, h]
    | some s => simp [verifyGo, chunkEmit, h]

theorem isChunkMatch_eq_isSome (r : ChunkResp) :
    isChunkMatch r = (chunkEmit r).isSome := by
  rw [isChunkMatch, chunkEmit]
  cases h : analyze_content r with
  | error e => rfl
  | ok o => cases o <;> rfl

theorem verifyGo_congr (o₁ o₂ : ℕ → ChunkResp)
    (h : ∀ j, chunkEmit (o₁ j) = chunkEmit (o₂ j)) :
    ∀ (chunks : List (List Char)) (i : ℕ),
      verifyGo o₁ i chunks = verifyGo o₂ i chunks
  | [], _ => rfl
  | c :: rest, i => by
    rw [verifyGo_cons, verifyGo_cons, h i, verifyGo_congr o₁ o₂ h rest (i + 1)]

theorem verifyGo_first_match (oracle : ℕ → ChunkResp) :
    ∀ (chunks : List (List Char)) (start k : ℕ), k < chunks.length →
      (∀ j, j < k → isChunkMatch (oracle (start + j)) = false) →
      isChunkMatch (oracle (start + k)) = true →
      verifyGo oracle start chunks
        = ((List.range (k + 1)).map (start + ·), chunkEmit (oracle (start + k)))
  | [], start, k, hk, _, _ => absurd hk (by simp)
  | c :: rest, start, 0, _, _, hmatch => by
    rw [isChunkMatch_eq_isSome] at hmatch
    rcases Option.isSome_iff_exists.mp hmatch with ⟨s, hs⟩
    rw [verifyGo_cons]
    simp only [Nat.add_zero] at hs ⊢
    rw [hs]
    rfl
  | c :: rest, start, k + 1, hk, hbefore, hmatch => by
    have hhead : chunkEmit (oracle start) = none := by
      have h0 := hbefore 0 (by omega)
      rw [isChunkMatch_eq_isSome, Nat.add_zero] at h0
      cases he : chunkEmit (oracle start) with
      | none => rfl
      | some s => rw [he] at h0; simp at h0
    have hbefore' : ∀ j, j < k → isChunkMatch (oracle (start + 1 + j)) = false := by
      intro j hj
      have e : start + (j + 1) = start + 1 + j := by omega
      have := hbefore (j + 1) (by omega)
      rwa [e] at this
    have hmatch' : isChunkMatch (oracle (start + 1 + k)) = true := by
      have e : start + (k + 1) = start + 1 + k := by omega
      rwa [e] at hmatch
    have hk' : k < rest.length := by
      simp only [List.length_cons] at hk
      omega
    have e : start + (k + 1) = start + 1 + k := by omega
    have hfst : start :: (List.range (k + 1)).map (start + 1 + ·)
        = (List.range (k + 1 + 1)).map (start + ·) := by
      conv_rhs => rw [List.range_succ_eq_map]
      rw [List.map_cons, List.map_map, Nat.add_zero]
      exact congrArg (start :: ·) (List.map_congr_left fun j _ => by
        simp only [Function.comp_apply, Nat.succ_eq_add_one]
        omega)
    rw [verifyGo_cons, hhead,
      verifyGo_first_match oracle rest (start + 1) k hk' hbefore' hmatch', e, hfst]

theorem chunksOf_replicate_2001 :
    chunksOf CHUNK_SIZE (List.replicate 2001 'a')
      = [List.replicate 2000 'a', List.replicate 1 'a'] := by
  have h1 : List.replicate 2001 'a' ≠ [] :=
    List.length_pos.mp (by rw [List.length_replicate]; norm_num)
  simp only [CHUNK_SIZE]
  rw [chunksOf_eq_cons 2000 (List.replicate 2001 'a') h1 (by norm_num),
    List.take_replicate, List.drop_replicate]
  norm_num
  rw [chunksOf_eq_cons 2000 ['a'] (by simp) (by norm_num)]
  norm_num
  rw [chunksOf_nil]

/-! ### Claim theorems: content verification -/

/-- C2 as stated is false: a chunk whose response parses successfully with
`has_match = true` but a null `analysis` does **not** stop the scan — the
`if let Ok(Some(..))` at src/llmgrep.rs line 147 falls through, and the next
chunk still receives an oracle call.  Here chunk 0 elicits
`{has_match: true, analysis: null}` and chunk 1 is still called. -/
theorem C2_first_match_counterexample :
    (fun j => if j = 0 then ChunkResp.parsed ⟨true, none⟩
      else ChunkResp.parsed ⟨true, some "x"⟩) 0 = ChunkResp.parsed ⟨true, none⟩ ∧
    verifyFile (fun j => if j = 0 then ChunkResp.parsed ⟨true, none⟩
      else ChunkResp.parsed ⟨true, some "x"⟩) (List.replicate 2001 'a')
      = ([0, 1], some "x") := by
  refine ⟨rfl, ?_⟩
  rw [verifyFile, chunksOf_replicate_2001]
  rfl

/-- C2 amended: on the first chunk whose oracle response parses successfully
with `has_match = true` **and a non-null analysis**, the verifier emits the
analysis for that file and calls the oracle for no later chunk (chunks
`0..i` inclusive are exactly the ones called); `has_match = true` with a null
analysis is treated like a non-match and scanning continues. -/
theorem C2_first_match_amended (oracle : ℕ → ChunkResp) (content : List Char)
    (i : ℕ) (hi : i < (chunksOf CHUNK_SIZE content).length)
    (hbefore : ∀ j, j < i → isChunkMatch (oracle j) = false)
    (hmatch : isChunkMatch (oracle i) = true) :
    verifyFile oracle content = (List.range (i + 1), chunkEmit (oracle i)) := by
  have h := verifyGo_first_match oracle (chunksOf CHUNK_SIZE content) 0 i hi
    (fun j hj => by simpa using hbefore j hj) (by simpa using hmatch)
  rw [verifyFile, h]
  simp

/-- Witness for C2's amended statement: the second chunk is the first match. -/
theorem C2_first_match_amended_witness :
    1 < (chunksOf CHUNK_SIZE (List.replicate 2001 'a')).length ∧
    verifyFile (fun j => if j = 1 then ChunkResp.parsed ⟨true, some "m"⟩
      else ChunkResp.parsed ⟨false, none⟩) (List.replicate 2001 'a')
      = ([0, 1], some "m") := by
  have hlen : 1 < (chunksOf CHUNK_SIZE (List.replicate 2001 'a')).length := by
    rw [chunksOf_replicate_2001]
    norm_num
  refine ⟨hlen, ?_⟩
  have h := C2_first_match_amended
    (fun j => if j = 1 then ChunkResp.parsed ⟨true, some "m"⟩
      else ChunkResp.parsed ⟨false, none⟩)
    (List.replicate 2001 'a') 1 hlen
    (fun j hj => by
      have hj0 : j = 0 := by omega
      subst hj0
      rfl)
    rfl
  rw [h]
  rfl

/-- C10: during content verification, a failed oracle request and an
unparsable response are both propagated as `Err` by `analyze_content` and are
then treated by the chunk loop exactly like a non-matching chunk (the scan's
calls and output are unchanged if the failure is replaced by a parsed
`has_match = false` verdict), so chunk analysis never surfaces an error;
during scoring, a failed oracle request aborts with `Err`. -/
theorem C10_error_tolerance :
    (∀ (oracle : ℕ → ChunkResp) (content : List Char) (i : ℕ) (r : ChunkResp),
      r = ChunkResp.requestError ∨ r = ChunkResp.parseError →
      verifyFile (updateAt oracle i r) content
        = verifyFile (updateAt oracle i (.parsed ⟨false, none⟩)) content) ∧
    (∀ r : ChunkResp, r = ChunkResp.requestError ∨ r = ChunkResp.parseError →
      analyze_content r = .error ()) ∧
    (∀ (files : List (FsPath × String)) (e : Unit),
      analyze_filenames_batchE files (.error e) = .error e) := by
  refine ⟨?_, ?_, ?_⟩
  · intro oracle content i r hr
    rw [verifyFile, verifyFile]
    apply verifyGo_congr
    intro j
    simp only [updateAt]
    by_cases hj : j = i
    · rcases hr with rfl | rfl <;> simp [hj] <;> rfl
    · simp [hj]
  · rintro r (rfl | rfl) <;> rfl
  · intro files e
    rfl

/-- Witness for C10 at a concrete one-chunk file and concrete failures. -/
theorem C10_error_tolerance_witness :
    verifyFile (updateAt (fun _ => ChunkResp.parsed ⟨true, some "m"⟩) 0
        ChunkResp.requestError) ['a', 'b']
      = verifyFile (updateAt (fun _ => ChunkResp.parsed ⟨true, some "m"⟩) 0
        (.parsed ⟨false, none⟩)) ['a', 'b'] ∧
    analyze_content ChunkResp.parseError = .error () ∧
    analyze_filenames_batchE [(["f"], "f")] (.error ()) = .error () :=
  ⟨C10_error_tolerance.1 (fun _ => ChunkResp.parsed ⟨true, some "m"⟩) ['a', 'b'] 0
      ChunkResp.requestError (Or.inl rfl),
    C10_error_tolerance.2.1 ChunkResp.parseError (Or.inr rfl),
    C10_error_tolerance.2.2 [(["f"], "f")] ()⟩

/-! ### Helper lemmas about the collector's ignore logic -/

theorem isPrefixOf?_append_self (dir rest : FsPath) :
    dir.isPrefixOf? (dir ++ rest) = some rest := by
  induction dir with
  | nil => simp [List.isPrefixOf?]
  | cons d ds ih => simp [List.isPrefixOf?, ih]

/-- Because `collect_candidates` passes the directory currently being scanned
as `should_ignore`'s root (src/llmsort.rs line 209), the relative path it
tests is always the bare entry name. -/
theorem should_ignore_at_parent (dir : FsPath) (n : String)
    (ignore_paths : List FsPath) :
    should_ignore (dir ++ [n]) dir ignore_paths = nameIgnored ignore_paths n := by
  simp only [should_ignore, nameIgnored, isPrefixOf?_append_self, Option.getD_some]

theorem mem_collect_candidates :
    ∀ (es : List FsEntry) (dir : FsPath) (ip : List FsPath) (p : FsPath),
      p ∈ collect_candidates dir ip es ↔
        ∃ suffix bytes, p = dir ++ suffix ∧ HasFile es suffix bytes ∧
          eligibleBytes bytes = true ∧ ∀ n ∈ suffix, nameIgnored ip n = false
  | [], dir, ip, p => by
    simp only [collect_candidates, List.not_mem_nil, false_iff]
    rintro ⟨suffix, bytes, _, hf, _, _⟩
    cases hf
  | .dir n sub :: rest, dir, ip, p => by
    simp only [collect_candidates]
    rw [List.mem_append]
    constructor
    · intro h
      rcases h with h | h
      · by_cases hig : should_ignore (dir ++ [n]) dir ip = true
        · rw [if_pos hig] at h
          cases h
        · rw [if_neg hig] at h
          rw [Bool.not_eq_true, should_ignore_at_parent] at hig
          rcases (mem_collect_candidates sub (dir ++ [n]) ip p).mp h with
            ⟨suffix, bytes, hp, hf, he, hnames⟩
          refine ⟨n :: suffix, bytes, ?_,
            HasFile.inDir n sub rest suffix bytes hf, he, ?_⟩
          · rw [hp]
            simp
          · intro m hm
            rcases List.mem_cons.mp hm with rfl | hm
            · exact hig
            · exact hnames m hm
      · rcases (mem_collect_candidates rest dir ip p).mp h with
          ⟨suffix, bytes, hp, hf, he, hnames⟩
        exact ⟨suffix, bytes, hp, HasFile.there _ rest suffix bytes hf, he, hnames⟩
    · rintro ⟨suffix, bytes, hp, hf, he, hnames⟩
      cases hf with
      | inDir name sub2 rest2 suffix2 bytes2 hf2 =>
        left
        have hnIg : nameIgnored ip n = false := hnames n (List.mem_cons_self n suffix2)
        have hig : ¬ should_ignore (dir ++ [n]) dir ip = true := by
          rw [should_ignore_at_parent, hnIg]
          simp
        rw [if_neg hig]
        apply (mem_collect_candidates sub (dir ++ [n]) ip p).mpr
        refine ⟨suffix2, bytes, ?_, hf2, he,
          fun m hm => hnames m (List.mem_cons_of_mem n hm)⟩
        rw [hp]
        simp
      | there e2 rest2 suffix2 bytes2 hf2 =>
        right
        exact (mem_collect_candidates rest dir ip p).mpr
          ⟨suffix, bytes, hp, hf2, he, hnames⟩
  | .file n content :: rest, dir, ip, p => by
    simp only [collect_candidates]
    rw [List.mem_append]
    by_cases hig : should_ignore (dir ++ [n]) dir ip = true
    · rw [if_pos hig]
      have hnIg : nameIgnored ip n = true := by
        rw [← should_ignore_at_parent dir n ip]
        exact hig
      constructor
      · intro h
        rcases h with h | h
        · cases h
        · rcases (mem_collect_candidates rest dir ip p).mp h with
            ⟨suffix, bytes, hp, hf, he, hnames⟩
          exact ⟨suffix, bytes, hp, HasFile.there _ rest suffix bytes hf, he, hnames⟩
      · rintro ⟨suffix, bytes, hp, hf, he, hnames⟩
        cases hf with
        | here name2 bytes2 rest2 =>
          have := hnames n (by simp)
          rw [hnIg] at this
          cases this
        | there e2 rest2 suffix2 bytes2 hf2 =>
          right
          exact (mem_collect_candidates rest dir ip p).mpr
            ⟨suffix, bytes, hp, hf2, he, hnames⟩
    · rw [if_neg hig]
      have hnIg : nameIgnored ip n = false := by
        rw [Bool.not_eq_true, should_ignore_at_parent] at hig
        exact hig
      by_cases helig : eligibleBytes content = true
      · have hcomp : (content.length ≤ MAX_FILE_SIZE ∧ is_binary_file content = false) ∧
            utf8Valid content = true := by
          simpa [eligibleBytes] using helig
        have hsize := hcomp.1.1
        have hbranch : (if MAX_FILE_SIZE < content.length then ([] : List FsPath)
            else if is_binary_file content then []
            else if !utf8Valid content then []
            else [dir ++ [n]]) = [dir ++ [n]] := by
          rw [if_neg (by omega), if_neg (by rw [hcomp.1.2]; simp),
            if_neg (by rw [hcomp.2]; simp)]
        rw [hbranch]
        constructor
        · intro h
          rcases h with h | h
          · have hp : p = dir ++ [n] := by simpa using h
            refine ⟨[n], content, hp, HasFile.here n content rest, helig, ?_⟩
            intro m hm
            rcases List.mem_cons.mp hm with rfl | hm
            · exact hnIg
            · cases hm
          · rcases (mem_collect_candidates rest dir ip p).mp h with
              ⟨suffix, bytes, hp, hf, he, hnames⟩
            exact ⟨suffix, bytes, hp, HasFile.there _ rest suffix bytes hf, he, hnames⟩
        · rintro ⟨suffix, bytes, hp, hf, he, hnames⟩
          cases hf with
          | here name2 bytes2 rest2 =>
            left
            rw [hp]
            simp
          | there e2 rest2 suffix2 bytes2 hf2 =>
            right
            exact (mem_collect_candidates rest dir ip p).mpr
              ⟨suffix, bytes, hp, hf2, he, hnames⟩
      · have hbranch : (if MAX_FILE_SIZE < content.length then ([] : List FsPath)
            else if is_binary_file content then []
            else if !utf8Valid content then []
            else [dir ++ [n]]) = [] := by
          by_cases h1 : MAX_FILE_SIZE < content.length
          · rw [if_pos h1]
          · by_cases h2 : is_binary_file content = true
            · rw [if_neg h1, if_pos h2]
            · by_cases h3 : utf8Valid content = true
              · exfalso
                apply helig
                rw [Bool.not_eq_true] at h2
                simp [eligibleBytes, h2, h3]
                omega
              · rw [if_neg h1, if_neg h2, if_pos (by rw [Bool.not_eq_true] at h3; rw [h3]; rfl)]
        rw [hbranch]
        constructor
        · intro h
          rcases h with h | h
          · cases h
          · rcases (mem_collect_candidates rest dir ip p).mp h with
              ⟨suffix, bytes, hp, hf, he, hnames⟩
            exact ⟨suffix, bytes, hp, HasFile.there _ rest suffix bytes hf, he, hnames⟩
        · rintro ⟨suffix, bytes, hp, hf, he, hnames⟩
          cases hf with
          | here name2 bytes2 rest2 =>
            exact absurd he helig
          | there e2 rest2 suffix2 bytes2 hf2 =>
            right
            exact (mem_collect_candidates rest dir ip p).mpr
              ⟨suffix, bytes, hp, hf2, he, hnames⟩
termination_by es _ _ _ => sizeOf es

/-! ### Claim theorems: the collector's ignore rules -/

/-- C4 as stated is false: the recursion passes the directory being scanned —
not the search root — as `should_ignore`'s root, so patterns are matched
against the entry's bare name at every level.  Here the pattern `.git` is not
a component-wise prefix of the eligible file's root-relative path
`a/.git`, yet the collector skips it. -/
theorem C4_ignore_counterexample :
    collect_candidates [] [[".git"]]
      [FsEntry.dir "a" [FsEntry.file ".git" [104, 105]]] = [] ∧
    List.isPrefixOf [".git"] ["a", ".git"] = false ∧
    eligibleBytes [104, 105] = true := by
  refine ⟨?_, by decide, by decide⟩
  simp [collect_candidates, should_ignore, List.isPrefixOf?, List.isPrefixOf]

/-- C4 amended: the relative path `should_ignore` tests is the entry's path
relative to its **immediate parent directory** (the directory being scanned),
i.e. the single component `[name]`; consequently an entry survives collection
iff it is a size/binary/UTF-8-eligible file and **no name on its chain of path
components from the root** has an ignore pattern as a component-wise prefix of
`[name]` — so skipping still applies to files and directories alike, a skipped
directory's entire subtree is skipped, single-component patterns match equal
names at every depth, and multi-component patterns never match anything. -/
theorem C4_ignore_amended (dir : FsPath) (ignore_paths : List FsPath)
    (es : List FsEntry) (p : FsPath) :
    (∀ n : String, should_ignore (dir ++ [n]) dir ignore_paths
        = nameIgnored ignore_paths n) ∧
    (p ∈ collect_candidates dir ignore_paths es ↔
      ∃ suffix bytes, p = dir ++ suffix ∧ HasFile es suffix bytes ∧
        eligibleBytes bytes = true ∧
        ∀ n ∈ suffix, nameIgnored ignore_paths n = false) :=
  ⟨fun n => should_ignore_at_parent dir n ignore_paths,
    mem_collect_candidates es dir ignore_paths p⟩

/-! ### Helper lemmas about the two retry loops -/

theorem retryGo_no_signal (step : ℕ → List (FsPath × ℚ))
    (h : ∀ t, (step t).isEmpty = false ∧
      (step t).any (fun c => decide (0 < c.2)) = false) :
    ∀ tc : ℕ, retryGo step tc = []
  | tc => by
    rw [retryGo]
    by_cases htc : tc < MAX_SORT_TRY_COUNT
    · rw [if_pos htc]
      simp only [(h tc).1, (h tc).2, Bool.false_eq_true, if_false]
      exact retryGo_no_signal step h (tc + 1)
    · rw [if_neg htc]
termination_by tc => MAX_SORT_TRY_COUNT - tc
decreasing_by
  simp only [MAX_SORT_TRY_COUNT] at htc ⊢
  omega

theorem searchRankGo_const (L : List (FsPath × ℚ)) (step : ℕ → List (FsPath × ℚ))
    (hL : ∀ t, step t = L) (hne : L.isEmpty = false)
    (hz : L.any (fun c => decide (0 < c.2)) = false) :
    ∀ (tc : ℕ) (acc : List (FsPath × ℚ)),
      searchRankGo step tc acc = if tc < 3 then some L else some acc
  | tc, acc => by
    rw [searchRankGo]
    by_cases htc : tc < 3
    · rw [if_pos htc, if_pos htc, hL tc]
      simp only [hne, hz, Bool.false_eq_true, if_false]
      rw [searchRankGo_const L step hL hne hz (tc + 1) L, ite_self]
    · rw [if_neg htc, if_neg htc]
termination_by tc _ => 3 - tc
decreasing_by omega

theorem collect_sort_with_retry_no_signal (dir : FsPath) (ip : List FsPath)
    (es : List FsEntry) (oracle : ℕ → ℕ → ScoreResponse)
    (h : ∀ t, (collect_and_sort_candidates dir ip es (oracle t)).isEmpty = false ∧
      (collect_and_sort_candidates dir ip es (oracle t)).any
        (fun c => decide (0 < c.2)) = false) :
    collect_sort_with_retry dir ip es oracle = [] := by
  rw [collect_sort_with_retry]
  exact retryGo_no_signal _ (fun t => h t) 0

theorem search_directory_rank_no_signal (dir : FsPath) (ip : List FsPath)
    (es : List FsEntry) (oracle : ℕ → ℕ → ScoreResponse)
    (L : List (FsPath × ℚ))
    (hL : ∀ t, collect_and_sort_candidates dir ip es (oracle t) = L)
    (hne : L.isEmpty = false)
    (hz : L.any (fun c => decide (0 < c.2)) = false) :
    search_directory_rank dir ip es oracle = some L := by
  rw [search_directory_rank]
  rw [searchRankGo_const L _ (fun t => hL t) hne hz 0 []]
  norm_num

/-! ### Claim theorems: the ranking retry loop -/

/-- C1: divergence between the two ranking loops on an all-zero run.  With one
eligible file and an oracle whose every response defeats both decode attempts
(so every attempt scores everything `0.0`), `collect_sort_with_retry`
(src/llmsort.rs lines 148-172) returns the empty list as the claim states —
but the ranking loop actually executed by `search_directory` (src/llmgrep.rs
lines 94-112, which never calls `collect_sort_with_retry`) falls out of its
loop after 3 attempts and proceeds to the second pass with the non-empty,
all-zero candidate list. -/
theorem C1_rank_retry_divergence :
    collect_sort_with_retry [] [] [FsEntry.file "a.txt" [104, 105]]
      (fun _ _ => ⟨none, none⟩) = [] ∧
    search_directory_rank [] [] [FsEntry.file "a.txt" [104, 105]]
      (fun _ _ => ⟨none, none⟩) = some [(["a.txt"], 0)] := by
  have hstep : ∀ t : ℕ, collect_and_sort_candidates [] []
      [FsEntry.file "a.txt" [104, 105]] ((fun _ _ => (⟨none, none⟩ : ScoreResponse)) t)
      = [(["a.txt"], 0)] := by
    intro t
    have hcol : collect_candidates [] [] [FsEntry.file "a.txt" [104, 105]]
        = [["a.txt"]] := by
      simp [collect_candidates, should_ignore, List.isPrefixOf?]
      decide
    rw [collect_and_sort_candidates, hcol]
    have hch : chunksOf BATCH_SIZE [(["a.txt"] : FsPath)] = [[["a.txt"]]] := by
      simp only [BATCH_SIZE]
      rw [chunksOf_eq_cons 100 _ (by simp) (by norm_num)]
      simp
      rw [chunksOf_nil]
    rw [scoreBatches, hch]
    simp [analyze_filenames_batch, scoreFor, parseScores, fileName, sortCand]
  have hne : ([(["a.txt"], (0 : ℚ))] : List (FsPath × ℚ)).isEmpty = false := rfl
  have hz : ([(["a.txt"], (0 : ℚ))] : List (FsPath × ℚ)).any
      (fun c => decide (0 < c.2)) = false := by decide
  exact ⟨collect_sort_with_retry_no_signal [] [] [FsEntry.file "a.txt" [104, 105]]
      (fun _ _ => ⟨none, none⟩)
      (fun t => by rw [hstep t]; exact ⟨hne, hz⟩),
    search_directory_rank_no_signal [] [] [FsEntry.file "a.txt" [104, 105]]
      (fun _ _ => ⟨none, none⟩) [(["a.txt"], 0)] hstep hne hz⟩

end LlmGrep
